import Mathlib

/-!
Verification development for the autopiper frontend type-inference engine
(`src/frontend/type-infer.h`).

The repository ships only the header: `InferenceNode` (slot list `nodes_`,
current value `type_`, transfer-function edges `inputs_`, `validators_`) with
declarations and documentation comments for `Update`, `Validate` and the
`TypeInferPass` edge constructors and solver.  The function bodies live in a
`.cc` file that is not part of the sources, so the behavioural definitions
below are modelled from the specification (and the header's own comments),
and the properties of the spec are proved against that model.
-/

namespace Autopiper

/-- Concrete types of the language, opaque to the inference engine (spec §3:
scalar width/signedness, array-of-T, port-of-T, register-of-T,
aggregate-by-name, bypass-of-T). -/
inductive ConcreteType : Type where
  | scalar (width : Nat) (signed : Bool)
  | arrayOf (elem : ConcreteType) (len : Nat)
  | portOf (elem : ConcreteType)
  | regOf (elem : ConcreteType)
  | aggOf (name : String)
  | bypassOf (elem : ConcreteType)
deriving DecidableEq, Repr

/-- Three-valued inference lattice (spec §3): `Unknown` (bottom),
`Resolved T`, `Conflict` (top). -/
inductive InferredType : Type where
  | unknown
  | resolved (t : ConcreteType)
  | conflict
deriving DecidableEq, Repr

/-- Modelled from the spec (§3, the join rules; the implementation of the
lattice join is in the missing `.cc`/`ast.h` sources): `Unknown` is the
bottom, two distinct `Resolved` values join to `Conflict`, `Conflict` is
absorbing. -/
def join : InferredType → InferredType → InferredType
  | .conflict, _ => .conflict
  | _, .conflict => .conflict
  | .unknown, x => x
  | x, .unknown => x
  | .resolved a, .resolved b => if a = b then .resolved a else .conflict

theorem conflict_join (a : InferredType) : join .conflict a = .conflict := by
  cases a <;> rfl

theorem join_conflict (a : InferredType) : join a .conflict = .conflict := by
  cases a <;> rfl

theorem unknown_join (a : InferredType) : join .unknown a = a := by
  cases a <;> rfl

theorem join_unknown (a : InferredType) : join a .unknown = a := by
  cases a <;> rfl

theorem join_idem (a : InferredType) : join a a = a := by
  cases a <;> simp [join]

theorem join_comm (a b : InferredType) : join a b = join b a := by
  cases a <;> cases b <;> simp [join] <;> split_ifs <;> simp_all

theorem join_assoc (a b c : InferredType) :
    join (join a b) c = join a (join b c) := by
  cases a <;> cases b <;> cases c <;>
    simp [join] <;> split_ifs <;> simp_all [join]

/-- Lattice order induced by the join: `a ≤ b` iff joining `a` into `b`
leaves `b` unchanged. -/
def tle (a b : InferredType) : Prop := join a b = b

instance (a b : InferredType) : Decidable (tle a b) := by
  unfold tle; infer_instance

theorem tle_refl (a : InferredType) : tle a a := join_idem a

theorem tle_trans {a b c : InferredType} (h1 : tle a b) (h2 : tle b c) :
    tle a c := by
  unfold tle at *
  calc join a c = join a (join b c) := by rw [h2]
    _ = join (join a b) c := (join_assoc a b c).symm
    _ = join b c := by rw [h1]
    _ = c := h2

theorem tle_antisymm {a b : InferredType} (h1 : tle a b) (h2 : tle b a) :
    a = b := by
  unfold tle at *
  rw [← h2, join_comm, h1]

theorem unknown_tle (a : InferredType) : tle .unknown a := unknown_join a

theorem tle_conflict (a : InferredType) : tle a .conflict := join_conflict a

theorem conflict_tle {a : InferredType} (h : tle .conflict a) :
    a = .conflict := by
  unfold tle at h; rw [conflict_join] at h; exact h.symm

theorem resolved_tle {t : ConcreteType} {a : InferredType}
    (h : tle (.resolved t) a) : a = .resolved t ∨ a = .conflict := by
  cases a with
  | unknown => unfold tle at h; simp [join] at h
  | conflict => exact Or.inr rfl
  | resolved u =>
      unfold tle at h
      simp only [join] at h
      by_cases he : t = u
      · exact Or.inl (by rw [he])
      · rw [if_neg he] at h; cases h

theorem tle_join_left (a b : InferredType) : tle a (join a b) := by
  unfold tle
  rw [← join_assoc, join_idem]

theorem tle_join_right (a b : InferredType) : tle b (join a b) := by
  rw [join_comm]; exact tle_join_left b a

theorem join_tle {a b c : InferredType} (h1 : tle a c) (h2 : tle b c) :
    tle (join a b) c := by
  unfold tle at *
  rw [join_assoc, h2, h1]

theorem join_mono {a a' b b' : InferredType} (h1 : tle a a') (h2 : tle b b') :
    tle (join a b) (join a' b') := by
  apply join_tle
  · exact tle_trans h1 (tle_join_left a' b')
  · exact tle_trans h2 (tle_join_right a' b')

/-- Height of a lattice value: `Unknown` 0, `Resolved` 1, `Conflict` 2. -/
def height : InferredType → Nat
  | .unknown => 0
  | .resolved _ => 1
  | .conflict => 2

theorem height_le_two (a : InferredType) : height a ≤ 2 := by
  cases a <;> simp [height]

theorem height_mono {a b : InferredType} (h : tle a b) :
    height a ≤ height b := by
  cases a <;> cases b <;> simp_all [height, tle, join]

theorem height_strict_mono {a b : InferredType} (h : tle a b) (hne : a ≠ b) :
    height a < height b := by
  cases a <;> cases b <;> simp_all [height, tle, join]

/-- Join of a list of lattice values, starting from the bottom. -/
def joinList (l : List InferredType) : InferredType :=
  l.foldr join .unknown

theorem joinList_nil : joinList [] = .unknown := rfl

theorem joinList_cons (a : InferredType) (l : List InferredType) :
    joinList (a :: l) = join a (joinList l) := rfl

theorem tle_joinList {a : InferredType} {l : List InferredType}
    (h : a ∈ l) : tle a (joinList l) := by
  induction l with
  | nil => cases h
  | cons b l ih =>
      rw [joinList_cons]
      rcases List.mem_cons.mp h with rfl | hmem
      · exact tle_join_left a (joinList l)
      · exact tle_trans (ih hmem) (tle_join_right b (joinList l))

theorem joinList_tle {u : InferredType} {l : List InferredType}
    (h : ∀ a ∈ l, tle a u) : tle (joinList l) u := by
  induction l with
  | nil => exact unknown_tle u
  | cons b l ih =>
      rw [joinList_cons]
      exact join_tle (h b (List.mem_cons_self b l))
        (ih fun a ha => h a (List.mem_cons_of_mem b ha))

theorem joinList_mono {l l' : List InferredType}
    (h : List.Forall₂ tle l l') : tle (joinList l) (joinList l') := by
  induction h with
  | nil => exact tle_refl _
  | cons hab _ ih =>
      rw [joinList_cons, joinList_cons]
      exact join_mono hab ih

theorem joinList_append (l l' : List InferredType) :
    joinList (l ++ l') = join (joinList l) (joinList l') := by
  induction l with
  | nil => rw [List.nil_append, joinList_nil, unknown_join]
  | cons b l ih =>
      rw [List.cons_append, joinList_cons, joinList_cons, ih, join_assoc]

/-- Transfer function of an input edge (`InferenceNode::TransferFunc`): a pure
mapping from the values of the edge's source nodes to one value. -/
abbrev TransferFunc := List InferredType → InferredType

/-- Validator attached to a node (`InferenceNode::ValidatorFunc`): a predicate
over the deduced value, capable of emitting a located error (spec §3). -/
structure Validator where
  check : InferredType → Bool
  msg : String

/-- One node of the type-inference graph (`InferenceNode` in
`src/frontend/type-infer.h`).  `nodes_` is the list of AST type slots unified
by this node (modelled as indices into the AST's slot storage); `inputs_` is
the list of transfer-function edges with their source-node indices;
`validators_` are run after solving.  The node's current value `type_` and
the slots' contents are mutable state and live in `TIState` below. -/
structure InferenceNode where
  loc : Nat
  nodes_ : List Nat
  inputs_ : List (TransferFunc × List Nat)
  validators_ : List Validator

/-- The inference graph owned by `TypeInferPass`: the collection `nodes_` of
all nodes, addressed by index. -/
structure Graph where
  nodes : List InferenceNode

/-- The mutable state acted on by the solver: the current value (`type_`) of
every inference node and the current contents of every AST type slot. -/
structure TIState where
  nodeVal : Nat → InferredType
  slotVal : Nat → InferredType

/-- Contribution of one input edge (header comment, lines 45-55): the transfer
function is invoked only once all source nodes are `Resolved`; a `Conflict`
source propagates `Conflict`; an `Unknown` source keeps the edge from firing
and the edge contributes `Unknown`. -/
def edgeContrib (f : TransferFunc) (srcs : List Nat)
    (nv : Nat → InferredType) : InferredType :=
  let vals := srcs.map nv
  if InferredType.conflict ∈ vals then .conflict
  else if InferredType.unknown ∈ vals then .unknown
  else f vals

/-- Contributions of all input edges of a node. -/
def contribs (n : InferenceNode) (nv : Nat → InferredType) :
    List InferredType :=
  n.inputs_.map fun e => edgeContrib e.1 e.2 nv

/-- Value recomputed by `InferenceNode::Update`: the join of the current
values of all bound type slots with the contributions of all input edges. -/
def recomputeVal (n : InferenceNode) (σ : TIState) : InferredType :=
  joinList (n.nodes_.map σ.slotVal ++ contribs n σ.nodeVal)

/-- Modelled from the spec (§4.1 `recompute()`; `InferenceNode::Update` is
declared in the header with the same contract but its body is in the missing
`.cc`): join the values of all linked slots with the input-edge results,
assign the join to the node's value, write the joined value back into every
bound slot, and return whether the value changed. -/
def Update (g : Graph) (i : Nat) (σ : TIState) : TIState × Bool :=
  match g.nodes[i]? with
  | none => (σ, false)
  | some n =>
      let v := recomputeVal n σ
      (⟨fun j => if j = i then v else σ.nodeVal j,
        fun s => if s ∈ n.nodes_ then v else σ.slotVal s⟩,
       decide (v ≠ σ.nodeVal i))

/-- One full solver pass: call `Update` on every node of the visitation
order in turn, recording whether any node's value changed. -/
def runPass (g : Graph) : List Nat → TIState → TIState × Bool
  | [], σ => (σ, false)
  | i :: rest, σ =>
      let p := Update g i σ
      let q := runPass g rest p.1
      (q.1, p.2 || q.2)

/-- Modelled from the spec (§4.4; `TypeInferPass::Infer`'s solver loop, whose
body is in the missing `.cc`): repeat full passes until one produces no
change.  Fuel bounds the recursion; `solve` below supplies enough fuel for
the loop to always exit through the no-change branch. -/
def solveAux (g : Graph) (order : List Nat) : Nat → TIState → TIState
  | 0, σ => σ
  | fuel + 1, σ =>
      match runPass g order σ with
      | (σ', true) => solveAux g order fuel σ'
      | (σ', false) => σ'

/-- The solver: iterate passes until a pass produces no change; at most
`2 * |nodes| + 1` passes are ever needed. -/
def solve (g : Graph) (order : List Nat) (σ : TIState) : TIState :=
  solveAux g order (2 * g.nodes.length + 1) σ

/-- A sequence of single-node updates in any order (used to state
monotonicity across successive `Update` calls). -/
def applyUpdates (g : Graph) (is : List Nat) (σ : TIState) : TIState :=
  is.foldl (fun τ i => (Update g i τ).1) σ

/-- Pointwise lattice order on solver states. -/
def stateLe (σ τ : TIState) : Prop :=
  (∀ i, tle (σ.nodeVal i) (τ.nodeVal i)) ∧ (∀ s, tle (σ.slotVal s) (τ.slotVal s))

/-- Pointwise equality of solver states. -/
def statePEq (σ τ : TIState) : Prop :=
  (∀ i, σ.nodeVal i = τ.nodeVal i) ∧ (∀ s, σ.slotVal s = τ.slotVal s)

/-- Solver invariant: no node's stored value exceeds what recomputing it in
the current state would give.  It holds initially (all node values
`Unknown`) and is preserved by every update. -/
def Inv (g : Graph) (σ : TIState) : Prop :=
  ∀ i n, g.nodes[i]? = some n → tle (σ.nodeVal i) (recomputeVal n σ)

/-- The slot list of the node at index `i` (empty when out of range). -/
def slotsAt (g : Graph) (i : Nat) : List Nat :=
  match g.nodes[i]? with
  | some n => n.nodes_
  | none => []

/-- Spec §3 invariant: every type slot belongs to exactly one node, so the
slot lists of distinct nodes are disjoint. -/
def DisjointSlots (g : Graph) : Prop :=
  ∀ i < g.nodes.length, ∀ j < g.nodes.length, ∀ s ∈ slotsAt g i,
    i ≠ j → s ∉ slotsAt g j

theorem stateLe_refl (σ : TIState) : stateLe σ σ :=
  ⟨fun _ => tle_refl _, fun _ => tle_refl _⟩

theorem stateLe_trans {σ τ υ : TIState} (h1 : stateLe σ τ) (h2 : stateLe τ υ) :
    stateLe σ υ :=
  ⟨fun i => tle_trans (h1.1 i) (h2.1 i), fun s => tle_trans (h1.2 s) (h2.2 s)⟩

theorem edgeContrib_congr (f : TransferFunc) (srcs : List Nat)
    {nv nv' : Nat → InferredType} (h : ∀ j, nv j = nv' j) :
    edgeContrib f srcs nv = edgeContrib f srcs nv' := by
  unfold edgeContrib
  have : srcs.map nv = srcs.map nv' := List.map_congr_left fun j _ => h j
  rw [this]

theorem contribs_congr (n : InferenceNode) {nv nv' : Nat → InferredType}
    (h : ∀ j, nv j = nv' j) : contribs n nv = contribs n nv' :=
  List.map_congr_left fun e _ => edgeContrib_congr e.1 e.2 h

/-- Every value in a list is below any lattice value a list element equals;
helper: all members of a list are below its join. -/
theorem mem_tle_joinList {l : List InferredType} {v : InferredType}
    (hv : joinList l = v) {a : InferredType} (ha : a ∈ l) : tle a v :=
  hv ▸ tle_joinList ha

/-- If every source is `Resolved` in `nv` and `nv ≤ nv'` pointwise with no
source `Conflict` in `nv'`, the sources are unchanged. -/
theorem edgeContrib_mono (f : TransferFunc) (srcs : List Nat)
    {nv nv' : Nat → InferredType} (h : ∀ j, tle (nv j) (nv' j)) :
    tle (edgeContrib f srcs nv) (edgeContrib f srcs nv') := by
  unfold edgeContrib
  by_cases hc : InferredType.conflict ∈ srcs.map nv
  · have hc' : InferredType.conflict ∈ srcs.map nv' := by
      rcases List.mem_map.mp hc with ⟨j, hj, hje⟩
      exact List.mem_map.mpr ⟨j, hj, (conflict_tle (hje ▸ h j)).symm ▸ rfl⟩
    simp only [if_pos hc, if_pos hc']
    exact tle_refl _
  · by_cases hu : InferredType.unknown ∈ srcs.map nv
    · simp only [if_neg hc, if_pos hu]
      exact unknown_tle _
    · -- every source is Resolved under nv
      by_cases hc' : InferredType.conflict ∈ srcs.map nv'
      · simp only [if_neg hc, if_neg hu, if_pos hc']
        exact tle_conflict _
      · have heq : srcs.map nv = srcs.map nv' := by
          apply List.map_congr_left
          intro j hj
          cases hnj : nv j with
          | conflict => exact absurd (List.mem_map.mpr ⟨j, hj, hnj ▸ rfl⟩) hc
          | unknown => exact absurd (List.mem_map.mpr ⟨j, hj, hnj ▸ rfl⟩) hu
          | resolved t =>
              rcases resolved_tle (hnj ▸ h j) with h' | h'
              · exact h'.symm
              · exact absurd (List.mem_map.mpr ⟨j, hj, h' ▸ rfl⟩) hc'
        rw [heq]
        exact tle_refl _

theorem contribs_mono (n : InferenceNode) {nv nv' : Nat → InferredType}
    (h : ∀ j, tle (nv j) (nv' j)) :
    List.Forall₂ tle (contribs n nv) (contribs n nv') := by
  unfold contribs
  rw [List.forall₂_map_right_iff, List.forall₂_map_left_iff]
  exact List.forall₂_same.mpr fun e _ => edgeContrib_mono e.1 e.2 h

theorem recomputeVal_mono (n : InferenceNode) {σ τ : TIState}
    (h : stateLe σ τ) : tle (recomputeVal n σ) (recomputeVal n τ) := by
  unfold recomputeVal
  apply joinList_mono
  apply List.rel_append
  · rw [List.forall₂_map_right_iff, List.forall₂_map_left_iff]
    exact List.forall₂_same.mpr fun s _ => h.2 s
  · exact contribs_mono n h.1

theorem Update_none {g : Graph} {i : Nat} (h : g.nodes[i]? = none)
    (σ : TIState) : Update g i σ = (σ, false) := by
  simp [Update, h]

theorem Update_some {g : Graph} {i : Nat} {n : InferenceNode}
    (h : g.nodes[i]? = some n) (σ : TIState) :
    Update g i σ =
      (⟨fun j => if j = i then recomputeVal n σ else σ.nodeVal j,
        fun s => if s ∈ n.nodes_ then recomputeVal n σ else σ.slotVal s⟩,
       decide (recomputeVal n σ ≠ σ.nodeVal i)) := by
  simp [Update, h]

theorem Update_nodeVal_self {g : Graph} {i : Nat} {n : InferenceNode}
    (h : g.nodes[i]? = some n) (σ : TIState) :
    (Update g i σ).1.nodeVal i = recomputeVal n σ := by
  rw [Update_some h]; simp

theorem Update_nodeVal_other {g : Graph} {i j : Nat} (σ : TIState)
    (hne : j ≠ i) : (Update g i σ).1.nodeVal j = σ.nodeVal j := by
  cases h : g.nodes[i]? with
  | none => rw [Update_none h]
  | some n => rw [Update_some h]; simp [hne]

theorem Update_changed_iff {g : Graph} {i : Nat} {n : InferenceNode}
    (h : g.nodes[i]? = some n) (σ : TIState) :
    (Update g i σ).2 = true ↔ recomputeVal n σ ≠ σ.nodeVal i := by
  rw [Update_some h]; simp

theorem Update_not_changed_nodeVal {g : Graph} {i : Nat} {σ : TIState}
    (h : (Update g i σ).2 = false) :
    ∀ j, (Update g i σ).1.nodeVal j = σ.nodeVal j := by
  intro j
  cases hn : g.nodes[i]? with
  | none => rw [Update_none hn]
  | some n =>
      have hv : recomputeVal n σ = σ.nodeVal i := by
        have := h
        rw [Update_some hn] at this
        simpa using this
      rw [Update_some hn]
      by_cases hj : j = i
      · simp [hj, hv]
      · simp [hj]

/-- Slot values never move backward under a single update: the written-back
value joins in the slot's current value. -/
theorem slot_tle_recompute {n : InferenceNode} {σ : TIState} {s : Nat}
    (hs : s ∈ n.nodes_) : tle (σ.slotVal s) (recomputeVal n σ) := by
  apply tle_joinList
  exact List.mem_append_left _ (List.mem_map.mpr ⟨s, hs, rfl⟩)

theorem contrib_tle_recompute {n : InferenceNode} {σ : TIState}
    {c : InferredType} (hc : c ∈ contribs n σ.nodeVal) :
    tle c (recomputeVal n σ) := by
  apply tle_joinList
  exact List.mem_append_right _ hc

theorem Update_stateLe {g : Graph} {i : Nat} {σ : TIState} (hInv : Inv g σ) :
    stateLe σ (Update g i σ).1 := by
  cases h : g.nodes[i]? with
  | none => rw [Update_none h]; exact stateLe_refl σ
  | some n =>
      rw [Update_some h]
      constructor
      · intro j
        by_cases hj : j = i
        · subst hj; simpa using hInv j n h
        · simp [hj]; exact tle_refl _
      · intro s
        by_cases hs : s ∈ n.nodes_
        · simp only [if_pos hs]
          exact slot_tle_recompute hs
        · simp only [if_neg hs]
          exact tle_refl _

theorem Update_mono {g : Graph} {i : Nat} {σ τ : TIState}
    (h : stateLe σ τ) : stateLe (Update g i σ).1 (Update g i τ).1 := by
  cases hn : g.nodes[i]? with
  | none => rw [Update_none hn, Update_none hn]; exact h
  | some n =>
      rw [Update_some hn, Update_some hn]
      constructor
      · intro j
        by_cases hj : j = i
        · simp only [hj, if_pos rfl]
          exact recomputeVal_mono n h
        · simp only [if_neg hj]
          exact h.1 j
      · intro s
        by_cases hs : s ∈ n.nodes_
        · simp only [if_pos hs]
          exact recomputeVal_mono n h
        · simp only [if_neg hs]
          exact h.2 s

theorem Update_Inv {g : Graph} {i : Nat} {σ : TIState} (hInv : Inv g σ) :
    Inv g (Update g i σ).1 := by
  intro k m hk
  have hle : stateLe σ (Update g i σ).1 := Update_stateLe hInv
  by_cases hki : k = i
  · subst hki
    cases hn : g.nodes[k]? with
    | none => rw [hn] at hk; cases hk
    | some n =>
        rw [hn] at hk
        cases hk
        rw [Update_nodeVal_self hn]
        exact recomputeVal_mono _ hle
  · rw [Update_nodeVal_other σ hki]
    exact tle_trans (hInv k m hk) (recomputeVal_mono m hle)

/-- Total lattice height of the node assignment: the termination measure. -/
def totalHeight (g : Graph) (σ : TIState) : Nat :=
  Finset.sum (Finset.range g.nodes.length) fun i => height (σ.nodeVal i)

theorem totalHeight_le (g : Graph) (σ : TIState) :
    totalHeight g σ ≤ 2 * g.nodes.length := by
  unfold totalHeight
  calc Finset.sum (Finset.range g.nodes.length)
        (fun i => height (σ.nodeVal i))
      ≤ Finset.sum (Finset.range g.nodes.length) (fun _ => 2) :=
        Finset.sum_le_sum fun i _ => height_le_two _
    _ = 2 * g.nodes.length := by
        rw [Finset.sum_const, Finset.card_range, smul_eq_mul, Nat.mul_comm]

theorem totalHeight_mono {g : Graph} {σ τ : TIState}
    (h : ∀ i, tle (σ.nodeVal i) (τ.nodeVal i)) :
    totalHeight g σ ≤ totalHeight g τ :=
  Finset.sum_le_sum fun i _ => height_mono (h i)

theorem Update_changed_totalHeight {g : Graph} {i : Nat} {σ : TIState}
    (hInv : Inv g σ) (hch : (Update g i σ).2 = true) :
    totalHeight g σ < totalHeight g (Update g i σ).1 := by
  cases hn : g.nodes[i]? with
  | none => rw [Update_none hn] at hch; cases hch
  | some n =>
      have hilt : i < g.nodes.length := by
        rcases List.getElem?_eq_some.mp hn with ⟨h', _⟩
        exact h'
      have hne : recomputeVal n σ ≠ σ.nodeVal i :=
        (Update_changed_iff hn σ).mp hch
      have hle := Update_stateLe (i := i) hInv
      apply Finset.sum_lt_sum
      · intro j _
        exact height_mono (hle.1 j)
      · refine ⟨i, Finset.mem_range.mpr hilt, ?_⟩
        rw [Update_nodeVal_self hn]
        exact height_strict_mono (hInv i n hn) fun he => hne he.symm

theorem runPass_stateLe {g : Graph} {l : List Nat} {σ : TIState}
    (hInv : Inv g σ) :
    stateLe σ (runPass g l σ).1 ∧ Inv g (runPass g l σ).1 := by
  induction l generalizing σ with
  | nil => exact ⟨stateLe_refl σ, hInv⟩
  | cons i rest ih =>
      have h1 : stateLe σ (Update g i σ).1 := Update_stateLe hInv
      have h2 : Inv g (Update g i σ).1 := Update_Inv hInv
      have := ih h2
      exact ⟨stateLe_trans h1 this.1, this.2⟩

theorem runPass_changed_totalHeight {g : Graph} {l : List Nat} {σ : TIState}
    (hInv : Inv g σ) (hch : (runPass g l σ).2 = true) :
    totalHeight g σ < totalHeight g (runPass g l σ).1 := by
  induction l generalizing σ with
  | nil => cases hch
  | cons i rest ih =>
      have hsplit : (runPass g (i :: rest) σ).1 = (runPass g rest (Update g i σ).1).1 ∧
          (runPass g (i :: rest) σ).2 =
            ((Update g i σ).2 || (runPass g rest (Update g i σ).1).2) := by
        simp [runPass]
      rw [hsplit.1]
      rw [hsplit.2] at hch
      have hInv' : Inv g (Update g i σ).1 := Update_Inv hInv
      cases hp : (Update g i σ).2 with
      | true =>
          have h1 : totalHeight g σ < totalHeight g (Update g i σ).1 :=
            Update_changed_totalHeight hInv hp
          have h2 : totalHeight g (Update g i σ).1 ≤
              totalHeight g (runPass g rest (Update g i σ).1).1 :=
            totalHeight_mono (runPass_stateLe hInv').1.1
          exact Nat.lt_of_lt_of_le h1 h2
      | false =>
          rw [hp, Bool.false_or] at hch
          have heq : totalHeight g σ = totalHeight g (Update g i σ).1 :=
            Finset.sum_congr rfl fun j _ => by
              rw [Update_not_changed_nodeVal hp j]
          rw [heq]
          exact ih hInv' hch

/-- The state after `k` full solver passes. -/
def iterPass (g : Graph) (order : List Nat) : Nat → TIState → TIState
  | 0, σ => σ
  | k + 1, σ => (runPass g order (iterPass g order k σ)).1

theorem iterPass_Inv {g : Graph} {order : List Nat} {σ : TIState}
    (hInv : Inv g σ) : ∀ k, Inv g (iterPass g order k σ) := by
  intro k
  induction k with
  | zero => exact hInv
  | succ k ih => exact (runPass_stateLe ih).2

/-- While every pass keeps reporting a change, the total height grows by at
least one per pass. -/
theorem iterPass_height {g : Graph} {order : List Nat} {σ : TIState}
    (hInv : Inv g σ) :
    ∀ m, (∀ k < m, (runPass g order (iterPass g order k σ)).2 = true) →
      m ≤ totalHeight g (iterPass g order m σ) := by
  intro m
  induction m with
  | zero => intro _; exact Nat.zero_le _
  | succ m ih =>
      intro h
      have hm : m ≤ totalHeight g (iterPass g order m σ) :=
        ih fun k hk => h k (Nat.lt_succ_of_lt hk)
      have hstep : totalHeight g (iterPass g order m σ) <
          totalHeight g (iterPass g order (m + 1) σ) :=
        runPass_changed_totalHeight (iterPass_Inv hInv m)
          (h m (Nat.lt_succ_self m))
      omega

/-- The initial solver state: all node values `Unknown` (slot contents are
whatever hints the AST already carries) satisfies the solver invariant. -/
theorem Inv_of_unknown {g : Graph} {σ : TIState}
    (h : ∀ i, σ.nodeVal i = .unknown) : Inv g σ := by
  intro i n _
  rw [h i]
  exact unknown_tle _

/-- A state in which every node is settled: recomputing any node gives back
its stored value, and every bound slot already holds its node's value. -/
def IsFixState (g : Graph) (τ : TIState) : Prop :=
  ∀ i n, g.nodes[i]? = some n →
    recomputeVal n τ = τ.nodeVal i ∧ ∀ s ∈ n.nodes_, τ.slotVal s = τ.nodeVal i

theorem Update_below_fix {g : Graph} {τ : TIState} (hfix : IsFixState g τ)
    {σ : TIState} (h : stateLe σ τ) (i : Nat) :
    stateLe (Update g i σ).1 τ := by
  cases hn : g.nodes[i]? with
  | none => rw [Update_none hn]; exact h
  | some n =>
      rcases hfix i n hn with ⟨hrec, hslots⟩
      have hval : tle (recomputeVal n σ) (τ.nodeVal i) := by
        rw [← hrec]
        exact recomputeVal_mono n h
      rw [Update_some hn]
      constructor
      · intro j
        by_cases hj : j = i
        · simp only [hj, if_pos rfl]
          exact hval
        · simp only [if_neg hj]
          exact h.1 j
      · intro s
        by_cases hs : s ∈ n.nodes_
        · simp only [if_pos hs]
          rw [hslots s hs] at *
          exact hval
        · simp only [if_neg hs]
          exact h.2 s

theorem runPass_below_fix {g : Graph} {τ : TIState} (hfix : IsFixState g τ)
    {l : List Nat} {σ : TIState} (h : stateLe σ τ) :
    stateLe (runPass g l σ).1 τ := by
  induction l generalizing σ with
  | nil => exact h
  | cons i rest ih => exact ih (Update_below_fix hfix h i)

theorem solveAux_true {g : Graph} {order : List Nat} {fuel : Nat}
    {σ σ' : TIState} (h : runPass g order σ = (σ', true)) :
    solveAux g order (fuel + 1) σ = solveAux g order fuel σ' := by
  simp [solveAux, h]

theorem solveAux_false {g : Graph} {order : List Nat} {fuel : Nat}
    {σ σ' : TIState} (h : runPass g order σ = (σ', false)) :
    solveAux g order (fuel + 1) σ = σ' := by
  simp [solveAux, h]

theorem solveAux_below_fix {g : Graph} {order : List Nat} {τ : TIState}
    (hfix : IsFixState g τ) {σ : TIState} (h : stateLe σ τ) (fuel : Nat) :
    stateLe (solveAux g order fuel σ) τ := by
  induction fuel generalizing σ with
  | zero => exact h
  | succ fuel ih =>
      rcases hru : runPass g order σ with ⟨σ', ch⟩
      have hle' : stateLe σ' τ := by
        have := runPass_below_fix hfix h (l := order)
        rw [hru] at this
        exact this
      cases ch
      · rw [solveAux_false hru]
        exact hle'
      · rw [solveAux_true hru]
        exact ih hle'

theorem solveAux_stateLe {g : Graph} {order : List Nat} {σ : TIState}
    (hInv : Inv g σ) (fuel : Nat) :
    stateLe σ (solveAux g order fuel σ) ∧ Inv g (solveAux g order fuel σ) := by
  induction fuel generalizing σ with
  | zero => exact ⟨stateLe_refl σ, hInv⟩
  | succ fuel ih =>
      have hp := runPass_stateLe (l := order) hInv
      rcases hru : runPass g order σ with ⟨σ', ch⟩
      rw [hru] at hp
      cases ch
      · rw [solveAux_false hru]
        exact hp
      · rw [solveAux_true hru]
        have := ih hp.2
        exact ⟨stateLe_trans hp.1 this.1, this.2⟩

/-- With fuel exceeding the remaining headroom of the height measure, the
solver loop exits through its no-change branch: the returned state is the
output of a pass that reported no change. -/
theorem solveAux_ends {g : Graph} {order : List Nat} :
    ∀ (fuel : Nat) (σ : TIState), Inv g σ →
      2 * g.nodes.length - totalHeight g σ < fuel →
      ∃ σp, Inv g σp ∧
        runPass g order σp = (solveAux g order fuel σ, false) := by
  intro fuel
  induction fuel with
  | zero => intro σ _ hf; omega
  | succ fuel ih =>
      intro σ hInv hf
      rcases hru : runPass g order σ with ⟨σ', ch⟩
      cases ch with
      | false =>
          refine ⟨σ, hInv, ?_⟩
          rw [solveAux_false hru]
          exact hru
      | true =>
          rw [solveAux_true hru]
          have hp := runPass_stateLe (l := order) hInv
          rw [hru] at hp
          have hlt : totalHeight g σ < totalHeight g σ' := by
            have := runPass_changed_totalHeight (l := order) hInv
            rw [hru] at this
            exact this rfl
          have hbd := totalHeight_le g σ'
          exact ih σ' hp.2 (by omega)

theorem recomputeVal_congr (n : InferenceNode) {σ τ : TIState}
    (h1 : ∀ s ∈ n.nodes_, σ.slotVal s = τ.slotVal s)
    (h2 : ∀ j, σ.nodeVal j = τ.nodeVal j) :
    recomputeVal n σ = recomputeVal n τ := by
  unfold recomputeVal
  rw [List.map_congr_left h1, contribs_congr n h2]

/-- Node `i` is settled in `σ`: its bound slots hold its value and
recomputing it cannot raise its value. -/
def Done (g : Graph) (σ : TIState) (i : Nat) : Prop :=
  ∀ n, g.nodes[i]? = some n →
    (∀ s ∈ n.nodes_, σ.slotVal s = σ.nodeVal i) ∧
    tle (recomputeVal n σ) (σ.nodeVal i)

/-- An update that reports no change leaves its own node settled. -/
theorem Update_done_self {g : Graph} {i : Nat} {σ : TIState}
    (hch : (Update g i σ).2 = false) : Done g (Update g i σ).1 i := by
  intro m hm
  cases hn : g.nodes[i]? with
  | none => rw [hn] at hm; cases hm
  | some n =>
      rw [hn] at hm
      cases hm
      have hv : recomputeVal m σ = σ.nodeVal i := by
        have := hch
        rw [Update_some hn] at this
        simpa using this
      have hval : (Update g i σ).1.nodeVal i = recomputeVal m σ :=
        Update_nodeVal_self hn σ
      have hslot : ∀ s ∈ m.nodes_,
          (Update g i σ).1.slotVal s = recomputeVal m σ := by
        intro s hs
        rw [Update_some hn]
        simp [hs]
      have hnv : ∀ j, (Update g i σ).1.nodeVal j = σ.nodeVal j :=
        Update_not_changed_nodeVal hch
      refine ⟨fun s hs => by rw [hslot s hs, hval], ?_⟩
      rw [hval, hv]
      apply joinList_tle
      intro x hx
      rcases List.mem_append.mp hx with hx | hx
      · rcases List.mem_map.mp hx with ⟨s, hs, rfl⟩
        rw [hslot s hs, hv]
        exact tle_refl _
      · have hc : contribs m (Update g i σ).1.nodeVal = contribs m σ.nodeVal :=
          contribs_congr m hnv
        rw [hc] at hx
        have := contrib_tle_recompute (n := m) (σ := σ) hx
        rw [hv] at this
        exact this

/-- With disjoint slot lists, a no-change update of another node preserves
settledness. -/
theorem Update_done_preserve {g : Graph} {i j : Nat} {σ : TIState}
    (hd : DisjointSlots g) (hch : (Update g j σ).2 = false)
    (hdone : Done g σ i) : Done g (Update g j σ).1 i := by
  by_cases hij : i = j
  · subst hij
    exact Update_done_self hch
  · cases hm : g.nodes[j]? with
    | none => rw [Update_none hm]; exact hdone
    | some m =>
        intro n hn
        rcases hdone n hn with ⟨hd1, hd2⟩
        have hi : i < g.nodes.length := (List.getElem?_eq_some.mp hn).1
        have hj : j < g.nodes.length := (List.getElem?_eq_some.mp hm).1
        have hdisj : ∀ s ∈ n.nodes_, s ∉ m.nodes_ := by
          intro s hs
          have hii := hd i hi j hj s
          rw [slotsAt, hn] at hii
          have := hii hs hij
          rw [slotsAt, hm] at this
          exact this
        have hveq : ∀ k, (Update g j σ).1.nodeVal k = σ.nodeVal k :=
          Update_not_changed_nodeVal hch
        have hseq : ∀ s ∈ n.nodes_, (Update g j σ).1.slotVal s = σ.slotVal s := by
          intro s hs
          rw [Update_some hm]
          simp [hdisj s hs]
        constructor
        · intro s hs
          rw [hseq s hs, hveq i]
          exact hd1 s hs
        · rw [recomputeVal_congr n hseq hveq, hveq i]
          exact hd2

/-- A full pass that reports no change leaves every visited node settled and
preserves settledness of all nodes. -/
theorem runPass_noChange {g : Graph} (hd : DisjointSlots g) :
    ∀ (l : List Nat) (σ σ' : TIState), runPass g l σ = (σ', false) →
      (∀ i, Done g σ i → Done g σ' i) ∧ (∀ i ∈ l, Done g σ' i) := by
  intro l
  induction l with
  | nil =>
      intro σ σ' h
      cases h
      exact ⟨fun _ hi => hi, fun _ hi => absurd hi (List.not_mem_nil _)⟩
  | cons i rest ih =>
      intro σ σ' h
      rcases hp : Update g i σ with ⟨σ₁, ch₁⟩
      have hsplit : runPass g (i :: rest) σ =
          ((runPass g rest σ₁).1, ch₁ || (runPass g rest σ₁).2) := by
        simp [runPass, hp]
      rw [hsplit] at h
      have hq1 : (runPass g rest σ₁).1 = σ' := congrArg Prod.fst h
      have hflags : (ch₁ || (runPass g rest σ₁).2) = false := congrArg Prod.snd h
      have hch₁ : ch₁ = false := by
        cases ch₁
        · rfl
        · rw [Bool.true_or] at hflags; cases hflags
      have hch₂ : (runPass g rest σ₁).2 = false := by
        cases hb : (runPass g rest σ₁).2
        · rfl
        · rw [hb, Bool.or_true] at hflags; cases hflags
      have hrest : runPass g rest σ₁ = (σ', false) := by
        rw [← hq1, ← hch₂]
      have ihr := ih σ₁ σ' hrest
      have hUfalse : (Update g i σ).2 = false := by rw [hp]; exact hch₁
      have hU1 : (Update g i σ).1 = σ₁ := by rw [hp]
      constructor
      · intro k hk
        apply ihr.1
        have := Update_done_preserve (i := k) (j := i) hd hUfalse hk
        rw [hU1] at this
        exact this
      · intro k hk
        rcases List.mem_cons.mp hk with rfl | hk
        · apply ihr.1
          have := Update_done_self (i := k) hUfalse
          rw [hU1] at this
          exact this
        · exact ihr.2 k hk

/-- If every node is settled and the solver invariant holds, the state is a
fixpoint: recomputation reproduces every node value and every slot already
holds its node's value. -/
theorem Done_Inv_fix {g : Graph} {σ : TIState} (hInv : Inv g σ)
    (hdone : ∀ i, Done g σ i) : IsFixState g σ := by
  intro i n hn
  rcases hdone i n hn with ⟨h1, h2⟩
  exact ⟨tle_antisymm h2 (hInv i n hn), h1⟩

/-- Uniqueness of the solved assignment: with the spec's slot-disjointness
invariant, solving from the same initial state under any two covering
visitation orders gives the same value on every node. -/
theorem solve_unique {g : Graph} {σ₀ : TIState} (hd : DisjointSlots g)
    (hInv : Inv g σ₀) {o₁ o₂ : List Nat}
    (h1 : ∀ i, i < g.nodes.length → i ∈ o₁)
    (h2 : ∀ i, i < g.nodes.length → i ∈ o₂) :
    ∀ i, (solve g o₁ σ₀).nodeVal i = (solve g o₂ σ₀).nodeVal i := by
  have hfuel : 2 * g.nodes.length - totalHeight g σ₀ < 2 * g.nodes.length + 1 := by
    omega
  have key : ∀ o : List Nat, (∀ i, i < g.nodes.length → i ∈ o) →
      IsFixState g (solve g o σ₀) ∧ stateLe σ₀ (solve g o σ₀) := by
    intro o ho
    rcases @solveAux_ends g o (2 * g.nodes.length + 1) σ₀ hInv hfuel with
      ⟨σp, hInvp, hpass⟩
    have hInvEnd : Inv g (solve g o σ₀) := by
      have := (runPass_stateLe (l := o) hInvp).2
      rw [hpass] at this
      exact this
    have hdone : ∀ i, Done g (solve g o σ₀) i := by
      intro i
      by_cases hi : i < g.nodes.length
      · exact (runPass_noChange hd o σp (solve g o σ₀) hpass).2 i (ho i hi)
      · intro n hn
        have : i < g.nodes.length := (List.getElem?_eq_some.mp hn).1
        exact absurd this hi
    exact ⟨Done_Inv_fix hInvEnd hdone, (solveAux_stateLe hInv _).1⟩
  rcases key o₁ h1 with ⟨hfix1, hle1⟩
  rcases key o₂ h2 with ⟨hfix2, hle2⟩
  have h12 : stateLe (solve g o₁ σ₀) (solve g o₂ σ₀) :=
    solveAux_below_fix hfix2 hle2 _
  have h21 : stateLe (solve g o₂ σ₀) (solve g o₁ σ₀) :=
    solveAux_below_fix hfix1 hle1 _
  exact fun i => tle_antisymm (h12.1 i) (h21.1 i)

/-- Error record fed to the error collector: source location and message. -/
abbrev Err := Nat × String

/-- Modelled from the spec (§4.1 `validate(errorSink)`; `InferenceNode::Validate`
is declared `const` in the header and its body is in the missing `.cc`): on a
`Resolved` value run every validator against it, appending a located error
for each failure and returning whether all passed; on `Conflict` report one
"could not unify types" error at the node's location and run no validators;
on `Unknown` report an "unable to infer type" error. -/
def Validate (n : InferenceNode) (v : InferredType) (coll : List Err) :
    Bool × List Err :=
  match v with
  | .resolved t =>
      (n.validators_.all fun vl => vl.check (.resolved t),
       coll ++ (n.validators_.filter fun vl => !vl.check (.resolved t)).map
         fun vl => (n.loc, vl.msg))
  | .conflict => (false, coll ++ [(n.loc, "could not unify types")])
  | .unknown => (false, coll ++ [(n.loc, "unable to infer type")])

/-- Modelled from the spec: validation as a state-passing step over the
solver state, making its read-only nature (the `const` qualifier on
`InferenceNode::Validate`) statable: it returns the flag, the extended
error list, and the solver state it leaves behind. -/
def ValidateAt (g : Graph) (i : Nat) (σ : TIState) (coll : List Err) :
    Bool × List Err × TIState :=
  match g.nodes[i]? with
  | none => (true, coll, σ)
  | some n =>
      let r := Validate n (σ.nodeVal i) coll
      (r.1, r.2, σ)

/-- Modelled from the spec (§4.2 convey-constant; `TypeInferPass::ConveyConstType`
is declared in the header, body in the missing `.cc`): add a zero-input
transfer edge carrying a fixed type into the node. -/
def ConveyConstType (n : InferenceNode) (ty : InferredType) : InferenceNode :=
  { n with inputs_ := n.inputs_ ++ [(fun _ => ty, [])] }

/-- Modelled from the spec (§4.2 convey; `TypeInferPass::ConveyType` is
declared in the header, body in the missing `.cc`): a one-way edge from
source node `n1` whose transfer function passes the source value through
unchanged. -/
def ConveyType (n1 : Nat) (n2 : InferenceNode) : InferenceNode :=
  { n2 with inputs_ := n2.inputs_ ++ [(fun vals => joinList vals, [n1])] }

/-- Width of a scalar concrete type. -/
def scalarWidth : ConcreteType → Option Nat
  | .scalar w _ => some w
  | _ => none

/-- Widths of a list of values that are all resolved scalars (`none`
otherwise). -/
def widthsOf : List InferredType → Option (List Nat)
  | [] => some []
  | .resolved t :: rest =>
      match scalarWidth t, widthsOf rest with
      | some w, some ws => some (w :: ws)
      | _, _ => none
  | _ :: _ => none

/-- Modelled from the spec (§4.2 sum-widths; `TypeInferPass::SumWidths` is
declared in the header, body in the missing `.cc`): the transfer function of
a sum-widths edge maps resolved scalar inputs to a scalar whose width is the
arithmetic sum of the input widths. -/
def sumWidthsTransfer (vals : List InferredType) : InferredType :=
  match widthsOf vals with
  | some ws => .resolved (.scalar ws.sum false)
  | none => .conflict

/-- Modelled from the spec: `SumWidths` wires one transfer-function edge
from the given source nodes into the sum node. -/
def SumWidths (sum : InferenceNode) (srcs : List Nat) : InferenceNode :=
  { sum with inputs_ := sum.inputs_ ++ [(sumWidthsTransfer, srcs)] }

/-- Modelled from the spec (§4.2 convey-field-ref and §6 aggregate-type
resolver; `TypeInferPass::ConveyFieldRef` is declared in the header, body in
the missing `.cc`): look the aggregate's field list up in the external
resolver; on success wire a zero-input edge conveying the named field's
declared type into the result node; a missing aggregate type or a missing
field name is a hard error raised at graph-build time. -/
def ConveyFieldRef (resolver : String → Option (List (String × ConcreteType)))
    (n : InferenceNode) (aggName fieldName : String) (loc : Nat) :
    Except Err InferenceNode :=
  match resolver aggName with
  | none => .error (loc, "unknown aggregate type")
  | some fields =>
      match fields.lookup fieldName with
      | none => .error (loc, "aggregate type has no field with this name")
      | some fty => .ok (ConveyConstType n (.resolved fty))

theorem widthsOf_not_conflict {l : List InferredType} {ws : List Nat}
    (h : widthsOf l = some ws) : InferredType.conflict ∉ l := by
  induction l generalizing ws with
  | nil => exact List.not_mem_nil _
  | cons a rest ih =>
      intro hmem
      cases a with
      | unknown => cases h
      | conflict => cases h
      | resolved t =>
          rcases List.mem_cons.mp hmem with h' | h'
          · cases h'
          · unfold widthsOf at h
            cases hsw : scalarWidth t with
            | none => rw [hsw] at h; cases h
            | some w =>
                rw [hsw] at h
                cases hrest : widthsOf rest with
                | none => rw [hrest] at h; cases h
                | some ws' => exact ih hrest h'

theorem widthsOf_not_unknown {l : List InferredType} {ws : List Nat}
    (h : widthsOf l = some ws) : InferredType.unknown ∉ l := by
  induction l generalizing ws with
  | nil => exact List.not_mem_nil _
  | cons a rest ih =>
      intro hmem
      cases a with
      | unknown => cases h
      | conflict => cases h
      | resolved t =>
          rcases List.mem_cons.mp hmem with h' | h'
          · cases h'
          · unfold widthsOf at h
            cases hsw : scalarWidth t with
            | none => rw [hsw] at h; cases h
            | some w =>
                rw [hsw] at h
                cases hrest : widthsOf rest with
                | none => rw [hrest] at h; cases h
                | some ws' => exact ih hrest h'

theorem applyUpdates_append (g : Graph) (is more : List Nat) (σ : TIState) :
    applyUpdates g (is ++ more) σ = applyUpdates g more (applyUpdates g is σ) :=
  List.foldl_append _ _ _ _

theorem applyUpdates_stateLe {g : Graph} {σ : TIState} (hInv : Inv g σ)
    (is : List Nat) :
    stateLe σ (applyUpdates g is σ) ∧ Inv g (applyUpdates g is σ) := by
  induction is generalizing σ with
  | nil => exact ⟨stateLe_refl σ, hInv⟩
  | cons i rest ih =>
      have h1 : stateLe σ (Update g i σ).1 := Update_stateLe hInv
      have h2 : Inv g (Update g i σ).1 := Update_Inv hInv
      have h3 := ih h2
      simp only [applyUpdates, List.foldl_cons] at *
      exact ⟨stateLe_trans h1 h3.1, h3.2⟩

/-- Example graph for the concrete witnesses: node 0 unifies slot 0 and has
a constant-type edge of width 8; node 1 unifies slot 1 and conveys node 0. -/
def exNode0 : InferenceNode :=
  { loc := 0, nodes_ := [0],
    inputs_ := [(fun _ => .resolved (.scalar 8 false), [])], validators_ := [] }

def exNode1 : InferenceNode :=
  { loc := 1, nodes_ := [1],
    inputs_ := [(fun vals => joinList vals, [0])], validators_ := [] }

def exGraph : Graph := ⟨[exNode0, exNode1]⟩

/-- Initial solver state: all node values and slot hints `Unknown`. -/
def exInit : TIState := ⟨fun _ => .unknown, fun _ => .unknown⟩

def exValNode : InferenceNode :=
  { loc := 7, nodes_ := [], inputs_ := [],
    validators_ :=
      [⟨fun v => decide (v = .resolved (.scalar 8 false)), "must be a width-8 scalar"⟩,
       ⟨fun _ => false, "always fails"⟩] }

def exLeaf (l : Nat) : InferenceNode :=
  { loc := l, nodes_ := [], inputs_ := [], validators_ := [] }

def exSumGraph : Graph := ⟨[exLeaf 0, exLeaf 1, SumWidths (exLeaf 2) [0, 1]]⟩

def exSumState : TIState :=
  ⟨fun j => if j = 0 then .resolved (.scalar 8 false)
    else if j = 1 then .resolved (.scalar 16 false) else .unknown,
   fun _ => .unknown⟩

def exSumStateC : TIState :=
  ⟨fun j => if j = 0 then .resolved (.scalar 8 false)
    else if j = 1 then .conflict else .unknown,
   fun _ => .unknown⟩

def exResolver : String → Option (List (String × ConcreteType)) :=
  fun name =>
    if name = "Pair" then
      some [("x", .scalar 8 false), ("y", .scalar 16 false)]
    else none

def exF : TransferFunc := fun _ => .resolved (.scalar 1 false)

def exNvConf : Nat → InferredType :=
  fun j => if j = 0 then .conflict else .unknown

def exNvUnk : Nat → InferredType :=
  fun j => if j = 0 then .resolved (.scalar 8 false) else .unknown

def exNvRes : Nat → InferredType :=
  fun j => if j = 0 then .resolved (.scalar 8 false)
    else .resolved (.scalar 16 false)

/-- C1: for every inference node, the sequence of the node's values across
successive `Update` calls (any visitation sequence, from the all-`Unknown`
initial node assignment) is non-decreasing in the lattice order, and once
the value is `Conflict` it remains `Conflict` for all later updates. -/
theorem C1_update_monotone (g : Graph) (σ₀ : TIState)
    (h0 : ∀ i, σ₀.nodeVal i = .unknown) (is more : List Nat) :
    (∀ j, tle ((applyUpdates g is σ₀).nodeVal j)
       ((applyUpdates g (is ++ more) σ₀).nodeVal j)) ∧
    (∀ j, (applyUpdates g is σ₀).nodeVal j = .conflict →
       (applyUpdates g (is ++ more) σ₀).nodeVal j = .conflict) := by
  have hInv : Inv g σ₀ := Inv_of_unknown h0
  have h1 := (applyUpdates_stateLe hInv is).2
  have h2 := (applyUpdates_stateLe h1 more).1
  rw [applyUpdates_append]
  exact ⟨fun j => h2.1 j, fun j hc => conflict_tle (hc ▸ h2.1 j)⟩

theorem C1_update_monotone_witness :
    tle ((applyUpdates exGraph [0] exInit).nodeVal 0)
      ((applyUpdates exGraph ([0] ++ [1, 0]) exInit).nodeVal 0) ∧
    tle ((applyUpdates exGraph [0] exInit).nodeVal 1)
      ((applyUpdates exGraph ([0] ++ [1, 0]) exInit).nodeVal 1) :=
  ⟨(C1_update_monotone exGraph exInit (fun _ => rfl) [0] [1, 0]).1 0,
   (C1_update_monotone exGraph exInit (fun _ => rfl) [0] [1, 0]).1 1⟩

/-- C2: the solver loop that repeatedly runs a full `Update` pass over every
node until a pass produces no change terminates: some pass among the first
`2 * |nodes| + 1` already reports no change, a bound proportional to the
size of the graph. -/
theorem C2_solver_terminates (g : Graph) (order : List Nat) (σ₀ : TIState)
    (h0 : ∀ i, σ₀.nodeVal i = .unknown) :
    ∃ k ≤ 2 * g.nodes.length,
      (runPass g order (iterPass g order k σ₀)).2 = false := by
  by_contra hcon
  push_neg at hcon
  have hall : ∀ k < 2 * g.nodes.length + 1,
      (runPass g order (iterPass g order k σ₀)).2 = true := by
    intro k hk
    cases hbk : (runPass g order (iterPass g order k σ₀)).2
    · exact absurd hbk (hcon k (by omega))
    · rfl
  have hh := iterPass_height (Inv_of_unknown h0) (2 * g.nodes.length + 1) hall
  have hb := totalHeight_le g (iterPass g order (2 * g.nodes.length + 1) σ₀)
  omega

theorem C2_solver_terminates_witness :
    (runPass exGraph [0, 1] (iterPass exGraph [0, 1] 1 exInit)).2 = false := by
  have h := C2_solver_terminates exGraph [0, 1] exInit (fun _ => rfl)
  decide

/-- C3: for every inference graph satisfying the spec's slot-disjointness
invariant (every type slot belongs to exactly one node) and any two
covering node-visitation orders, solving to fixpoint under the two orders
yields the identical final assignment of values to all nodes. -/
theorem C3_confluence (g : Graph) (σ₀ : TIState) (hd : DisjointSlots g)
    (h0 : ∀ i, σ₀.nodeVal i = .unknown) (o₁ o₂ : List Nat)
    (h1 : ∀ i, i < g.nodes.length → i ∈ o₁)
    (h2 : ∀ i, i < g.nodes.length → i ∈ o₂) :
    ∀ i, (solve g o₁ σ₀).nodeVal i = (solve g o₂ σ₀).nodeVal i :=
  solve_unique hd (Inv_of_unknown h0) h1 h2

theorem C3_confluence_witness :
    (solve exGraph [0, 1] exInit).nodeVal 0 =
      (solve exGraph [1, 0] exInit).nodeVal 0 ∧
    (solve exGraph [0, 1] exInit).nodeVal 1 =
      (solve exGraph [1, 0] exInit).nodeVal 1 :=
  ⟨C3_confluence exGraph exInit (by unfold DisjointSlots; decide) (fun _ => rfl)
     [0, 1] [1, 0] (by decide) (by decide) 0,
   C3_confluence exGraph exInit (by unfold DisjointSlots; decide) (fun _ => rfl)
     [0, 1] [1, 0] (by decide) (by decide) 1⟩

/-- C4: the join on `InferredType` is commutative, associative and
idempotent; `Unknown` is a bottom element, `Conflict` is absorbing, and the
join of two `Resolved` values with distinct concrete types is `Conflict`. -/
theorem C4_join_lattice :
    (∀ a b : InferredType, join a b = join b a) ∧
    (∀ a b c : InferredType, join (join a b) c = join a (join b c)) ∧
    (∀ a : InferredType, join a a = a) ∧
    (∀ a : InferredType, join .unknown a = a) ∧
    (∀ a : InferredType, join .conflict a = .conflict) ∧
    (∀ t u : ConcreteType, t ≠ u →
       join (.resolved t) (.resolved u) = .conflict) :=
  ⟨join_comm, join_assoc, join_idem, unknown_join, conflict_join,
   fun _ _ h => by simp [join, h]⟩

theorem C4_join_lattice_witness :
    join (.resolved (.scalar 8 false)) (.resolved (.scalar 16 false)) =
      .conflict :=
  C4_join_lattice.2.2.2.2.2 (.scalar 8 false) (.scalar 16 false) (by decide)

/-- C5: an edge's transfer function is invoked only when every source node
is `Resolved`; a `Conflict` source makes the edge contribute `Conflict`,
and an `Unknown` source (with no `Conflict`) makes it contribute `Unknown`
without invoking the transfer function (the contribution is the same for
every transfer function). -/
theorem C5_firing_rule (f : TransferFunc) (srcs : List Nat)
    (nv : Nat → InferredType) :
    ((∃ j ∈ srcs, nv j = .conflict) → edgeContrib f srcs nv = .conflict) ∧
    ((∀ j ∈ srcs, nv j ≠ .conflict) → (∃ j ∈ srcs, nv j = .unknown) →
       edgeContrib f srcs nv = .unknown ∧
       ∀ f' : TransferFunc, edgeContrib f' srcs nv = .unknown) ∧
    ((∀ j ∈ srcs, ∃ t, nv j = .resolved t) →
       edgeContrib f srcs nv = f (srcs.map nv)) := by
  refine ⟨?_, ?_, ?_⟩
  · rintro ⟨j, hj, hc⟩
    have hmem : InferredType.conflict ∈ srcs.map nv :=
      List.mem_map.mpr ⟨j, hj, hc⟩
    simp [edgeContrib, hmem]
  · intro hnc hex
    rcases hex with ⟨j, hj, hu⟩
    have hc : InferredType.conflict ∉ srcs.map nv := by
      intro hmem
      rcases List.mem_map.mp hmem with ⟨k, hk, hke⟩
      exact hnc k hk hke
    have hu' : InferredType.unknown ∈ srcs.map nv :=
      List.mem_map.mpr ⟨j, hj, hu⟩
    exact ⟨by simp [edgeContrib, hc, hu'], fun f' => by simp [edgeContrib, hc, hu']⟩
  · intro hres
    have hc : InferredType.conflict ∉ srcs.map nv := by
      intro hmem
      rcases List.mem_map.mp hmem with ⟨k, hk, hke⟩
      rcases hres k hk with ⟨t, ht⟩
      rw [ht] at hke
      cases hke
    have hu : InferredType.unknown ∉ srcs.map nv := by
      intro hmem
      rcases List.mem_map.mp hmem with ⟨k, hk, hke⟩
      rcases hres k hk with ⟨t, ht⟩
      rw [ht] at hke
      cases hke
    simp [edgeContrib, hc, hu]

theorem C5_firing_rule_witness :
    edgeContrib exF [0, 1] exNvConf = .conflict ∧
    edgeContrib exF [0, 1] exNvUnk = .unknown ∧
    edgeContrib exF [0, 1] exNvRes = exF ([0, 1].map exNvRes) :=
  ⟨(C5_firing_rule exF [0, 1] exNvConf).1 ⟨0, by decide, rfl⟩,
   ((C5_firing_rule exF [0, 1] exNvUnk).2.1 (by decide) ⟨1, by decide, rfl⟩).1,
   (C5_firing_rule exF [0, 1] exNvRes).2.2 (fun j hj => by
      rcases List.mem_cons.mp hj with rfl | hj
      · exact ⟨_, rfl⟩
      · rcases List.mem_cons.mp hj with rfl | hj
        · exact ⟨_, rfl⟩
        · cases hj)⟩

/-- C6: `Update` sets the node's value to the lattice join (the least upper
bound) of the current values of all bound type slots and the contributions
of all input edges, writes the joined value back into every bound slot, and
returns true exactly when the node's value changed. -/
theorem C6_update_contract (g : Graph) (i : Nat) (σ : TIState)
    (n : InferenceNode) (h : g.nodes[i]? = some n) :
    (∀ x ∈ n.nodes_.map σ.slotVal ++ contribs n σ.nodeVal,
       tle x ((Update g i σ).1.nodeVal i)) ∧
    (∀ u, (∀ x ∈ n.nodes_.map σ.slotVal ++ contribs n σ.nodeVal, tle x u) →
       tle ((Update g i σ).1.nodeVal i) u) ∧
    (∀ s ∈ n.nodes_,
       (Update g i σ).1.slotVal s = (Update g i σ).1.nodeVal i) ∧
    ((Update g i σ).2 = true ↔ (Update g i σ).1.nodeVal i ≠ σ.nodeVal i) := by
  have hval := Update_nodeVal_self h σ
  refine ⟨?_, ?_, ?_, ?_⟩
  · intro x hx
    rw [hval]
    exact tle_joinList hx
  · intro u hu
    rw [hval]
    exact joinList_tle hu
  · intro s hs
    rw [Update_some h]
    simp [hs]
  · rw [hval]
    exact Update_changed_iff h σ

theorem C6_update_contract_witness :
    (Update exGraph 0 exInit).2 = true ∧
    (Update exGraph 0 exInit).1.slotVal 0 = (Update exGraph 0 exInit).1.nodeVal 0 :=
  ⟨(C6_update_contract exGraph 0 exInit exNode0 rfl).2.2.2.mpr (by decide),
   (C6_update_contract exGraph 0 exInit exNode0 rfl).2.2.1 0 (by decide)⟩

/-- C7: on a `Resolved` value `Validate` runs every validator and returns
true iff all pass, appending one error at the node's location per failing
validator; on `Conflict` it reports exactly one "could not unify types"
error at the node's location, returns false, and never consults the
validator list; on `Unknown` it reports an "unable to infer type" error. -/
theorem C7_validate (n : InferenceNode) (coll : List Err) :
    (∀ t, ((Validate n (.resolved t) coll).1 = true ↔
         ∀ vl ∈ n.validators_, vl.check (.resolved t) = true) ∧
       (Validate n (.resolved t) coll).2 =
         coll ++ (n.validators_.filter fun vl => !vl.check (.resolved t)).map
           (fun vl => (n.loc, vl.msg))) ∧
    ((Validate n .conflict coll).1 = false ∧
     (Validate n .conflict coll).2 = coll ++ [(n.loc, "could not unify types")] ∧
     (∀ vs, Validate { n with validators_ := vs } .conflict coll =
        Validate n .conflict coll)) ∧
    ((Validate n .unknown coll).1 = false ∧
     (Validate n .unknown coll).2 = coll ++ [(n.loc, "unable to infer type")]) := by
  refine ⟨fun t => ⟨?_, rfl⟩, ⟨rfl, rfl, fun vs => rfl⟩, rfl, rfl⟩
  simp [Validate, List.all_eq_true]

theorem C7_validate_witness :
    (Validate exValNode .conflict []).1 = false ∧
    (Validate exValNode .conflict []).2 =
      [] ++ [(exValNode.loc, "could not unify types")] ∧
    (Validate exValNode (.resolved (.scalar 8 false)) []).2 =
      [] ++ ((exValNode.validators_.filter
        fun vl => !vl.check (.resolved (.scalar 8 false))).map
          fun vl => (exValNode.loc, vl.msg)) :=
  ⟨(C7_validate exValNode []).2.1.1, (C7_validate exValNode []).2.1.2.1,
   ((C7_validate exValNode []).1 (.scalar 8 false)).2⟩

/-- C8: a sum node wired by `SumWidths` whose inputs all resolve to scalar
widths resolves to the arithmetic sum of those widths; if any input is
`Conflict`, the sum node's value is `Conflict`. -/
theorem C8_sum_widths (g : Graph) (i : Nat) (σ : TIState)
    (base : InferenceNode) (srcs : List Nat)
    (hb1 : base.nodes_ = []) (hb2 : base.inputs_ = [])
    (h : g.nodes[i]? = some (SumWidths base srcs)) :
    (∀ ws, widthsOf (srcs.map σ.nodeVal) = some ws →
       (Update g i σ).1.nodeVal i = .resolved (.scalar ws.sum false)) ∧
    ((∃ k ∈ srcs, σ.nodeVal k = .conflict) →
       (Update g i σ).1.nodeVal i = .conflict) := by
  have hval := Update_nodeVal_self h σ
  have hrec : recomputeVal (SumWidths base srcs) σ =
      edgeContrib sumWidthsTransfer srcs σ.nodeVal := by
    unfold recomputeVal SumWidths contribs
    simp [hb1, hb2, joinList, join_unknown]
  constructor
  · intro ws hws
    rw [hval, hrec]
    have hc := widthsOf_not_conflict hws
    have hu := widthsOf_not_unknown hws
    simp [edgeContrib, hc, hu, sumWidthsTransfer, hws]
  · rintro ⟨k, hk, hkc⟩
    rw [hval, hrec]
    have hmem : InferredType.conflict ∈ srcs.map σ.nodeVal :=
      List.mem_map.mpr ⟨k, hk, hkc⟩
    simp [edgeContrib, hmem]

theorem C8_sum_widths_witness :
    (Update exSumGraph 2 exSumState).1.nodeVal 2 =
      .resolved (.scalar 24 false) ∧
    (Update exSumGraph 2 exSumStateC).1.nodeVal 2 = .conflict :=
  ⟨(C8_sum_widths exSumGraph 2 exSumState (exLeaf 2) [0, 1] rfl rfl rfl).1
     [8, 16] (by decide),
   (C8_sum_widths exSumGraph 2 exSumStateC (exLeaf 2) [0, 1] rfl rfl rfl).2
     ⟨1, by decide, rfl⟩⟩

/-- C9: `ConveyFieldRef` with an existing field wires the result node so
that its value includes the field's declared type (the type is conveyed);
with a field name absent from the resolved aggregate definition it returns
the error immediately, at graph-build time. -/
theorem C9_field_ref (resolver : String → Option (List (String × ConcreteType)))
    (n : InferenceNode) (aggName fieldName : String) (loc : Nat)
    (fields : List (String × ConcreteType))
    (hres : resolver aggName = some fields) :
    (∀ fty, fields.lookup fieldName = some fty →
       ConveyFieldRef resolver n aggName fieldName loc =
         .ok (ConveyConstType n (.resolved fty)) ∧
       ∀ (g : Graph) (i : Nat) (σ : TIState),
         g.nodes[i]? = some (ConveyConstType n (.resolved fty)) →
         tle (.resolved fty) ((Update g i σ).1.nodeVal i)) ∧
    (fields.lookup fieldName = none →
       ConveyFieldRef resolver n aggName fieldName loc =
         .error (loc, "aggregate type has no field with this name")) := by
  constructor
  · intro fty hl
    constructor
    · simp [ConveyFieldRef, hres, hl]
    · intro g i σ h
      rw [Update_nodeVal_self h]
      have hc : edgeContrib (fun _ => InferredType.resolved fty) [] σ.nodeVal =
          .resolved fty := by
        simp [edgeContrib]
      have hmem : InferredType.resolved fty ∈
          contribs (ConveyConstType n (.resolved fty)) σ.nodeVal := by
        unfold contribs ConveyConstType
        simp only [List.map_append]
        apply List.mem_append_right
        simp [hc]
      exact contrib_tle_recompute hmem
  · intro hl
    simp [ConveyFieldRef, hres, hl]

theorem C9_field_ref_witness :
    ConveyFieldRef exResolver (exLeaf 3) "Pair" "x" 3 =
      .ok (ConveyConstType (exLeaf 3) (.resolved (.scalar 8 false))) ∧
    ConveyFieldRef exResolver (exLeaf 3) "Pair" "z" 3 =
      .error (3, "aggregate type has no field with this name") :=
  ⟨((C9_field_ref exResolver (exLeaf 3) "Pair" "x" 3
      [("x", .scalar 8 false), ("y", .scalar 16 false)] rfl).1
      (.scalar 8 false) rfl).1,
   (C9_field_ref exResolver (exLeaf 3) "Pair" "z" 3
      [("x", .scalar 8 false), ("y", .scalar 16 false)] rfl).2 rfl⟩

/-- C10: validation is read-only: running `Validate` (declared `const` in
the header) leaves the solver state — every node value and every slot
content — unchanged. -/
theorem C10_validate_frame (g : Graph) (i : Nat) (σ : TIState)
    (coll : List Err) :
    (ValidateAt g i σ coll).2.2 = σ ∧
    (ValidateAt g i σ coll).2.2.nodeVal i = σ.nodeVal i ∧
    (∀ s, (ValidateAt g i σ coll).2.2.slotVal s = σ.slotVal s) := by
  have h : (ValidateAt g i σ coll).2.2 = σ := by
    unfold ValidateAt
    cases g.nodes[i]? <;> rfl
  exact ⟨h, by rw [h], fun s => by rw [h]⟩

end Autopiper
